import Mathlib

/-!
Verification of the roster segmentation and extraction pipeline of
`ss_roster2csv` (file `parser.py`), against its natural-language
specification.

The Python functions are shallowly embedded as executable Lean
definitions.  Python lists of strings become `List String`; functions
that can raise (`assert`, unguarded `list.index`) return `Option`.
Logging calls are modelled as explicit warning accumulators where a
claim refers to them.  The regular expressions used by the student
extractor are embedded as deterministic matchers over `List Char`
(the concrete patterns have no residual backtracking ambiguity; the
places where Python's backtracking matters are resolved explicitly
and justified in comments).  Character classes `\d` and `\s` are
modelled over the ASCII range the roster text uses.
-/

namespace Roster

abbrev Page := List String
abbrev Pages := List Page
abbrev Course := List String

/-- Index of the first occurrence of `a` in `l` (`l.length` when absent);
mirrors Python `l.index(a)` on the guarded paths where `a ∈ l`. -/
def firstIdx (a : String) : List String → Nat
  | [] => 0
  | b :: l => if b = a then 0 else firstIdx a l + 1

/-- Python `l.index(a)`: raises `ValueError` when `a` is absent, modelled
as `none`. -/
def pyIndex (a : String) (l : List String) : Option Nat :=
  if a ∈ l then some (firstIdx a l) else none

/-- Python slice `l[s:e]` for `0 ≤ s, e` (clamping, empty when `s ≥ e`). -/
def pySlice (l : List String) (s e : Nat) : List String :=
  (l.drop s).take (e - s)

/-- `page[page.index("Email") + 1 :]` — the trimming applied to
continuation pages in `find_course_pages` (only ever applied when
`"Email" ∈ page`). -/
def stripEmail (page : Page) : Page :=
  page.drop (firstIdx "Email" page + 1)

/-- State of the page-accumulation loop of `find_course_pages`:
finalized course blocks, the current course buffer, and the indices of
pages for which the missing-`"Email"` warning was logged. -/
structure SegState where
  courses : List (List Page)
  course : List Page
  warns : List Nat
deriving DecidableEq, Repr

/-- One iteration of the `for idx, page in enumerate(pages)` loop of
`find_course_pages` (parser.py lines 66-88). -/
def fcpStep (st : SegState) (idx : Nat) (page : Page) : SegState :=
  let trio : Page × Bool × Bool :=
    if st.course ≠ [] then
      if "Email" ∈ page then
        let p := stripEmail page
        (p, p.length = 0, false)
      else (page, false, true)
    else (page, false, false)
  let page' := trio.1
  let empty_page := trio.2.1
  let warned := trio.2.2
  let course' := st.course ++ [page']
  let warns' := if warned then st.warns ++ [idx] else st.warns
  if "Total" ∈ page' ∨ empty_page then
    ⟨st.courses ++ [course'], [], warns'⟩
  else
    ⟨st.courses, course', warns'⟩

def fcpAux (idx : Nat) (st : SegState) : Pages → SegState
  | [] => st
  | p :: ps => fcpAux (idx + 1) (fcpStep st idx p) ps

/-- The final state of `find_course_pages`'s accumulation loop.  The
`course` field is the trailing buffer left over after the loop: the
Python code reads only `courses` afterwards. -/
def fcpRun (pages : Pages) : SegState :=
  fcpAux 0 ⟨[], [], []⟩ pages

/-- The raw (unmerged) course blocks accumulated by `find_course_pages`
before the `make_one` mapping. -/
def find_course_pages_raw (pages : Pages) : List (List Page) :=
  (fcpRun pages).courses

/-- `make_one` (parser.py lines 94-113): flattens a block of at most two
pages; the `assert len(course) in [0, 1, 2]` raises on any other count,
modelled as `none`. -/
def make_one (course : List Page) : Option Course :=
  match course with
  | [] => some []
  | [p] => some p
  | [p, q] => some (p ++ q)
  | _ => none

/-- `find_course_pages` (parser.py lines 45-91): the accumulated blocks,
each flattened by `make_one`; an assertion failure inside `make_one`
propagates to the caller (`none`). -/
def find_course_pages (pages : Pages) : Option (List Course) :=
  (find_course_pages_raw pages).mapM make_one

/-- `split_head_body` (parser.py lines 149-180).  Each `course.index`
call is modelled by `pyIndex`; the `try/except ValueError` around
`course.index("Total")` becomes `getD course.length`. -/
def split_head_body (course : Course) : Option (List String × List String) :=
  if "StudentID" ∉ course then some (course, [])
  else do
    let head_eidx ← pyIndex "StudentID" course
    if "Email" ∉ course then
      some (course.take head_eidx, [])
    else do
      let stud_sidx ← pyIndex "Email" course
      let stud_eidx := (pyIndex "Total" course).getD course.length
      some (course.take head_eidx, pySlice course (stud_sidx + 1) stud_eidx)

/-! ### The student regular expressions

`get_students` scans `re.finditer(r"\s*((?<!\d)\d{1,2})\s+((?:TU-)?(?<!\d)\d{5})\s+([^\d+]+)", text)`
and `get_lonely_students` uses `re.match(r"\s*((?:TU-)?(?<!\d)\d{5})\s+([^\d+]+)", text)`.
Both patterns are deterministic once Python's backtracking is resolved:
every place backtracking could occur is either impossible to exercise or
collapses to a single outcome, argued locally below. -/

/-- Python `\s` over the ASCII range. -/
def pySpace (c : Char) : Bool :=
  c = ' ' || c = '\t' || c = '\n' || c = '\r' || c = '\x0b' || c = '\x0c'

/-- A character admitted by the name class `[^\d+]`. -/
def nameChar (c : Char) : Bool :=
  !c.isDigit && c != '+'

/-- The lookbehind `(?<!\d)`: `prev` is the character just before the
current position (`none` at the start of the text). -/
def prevNonDigit : Option Char → Bool
  | none => true
  | some c => !c.isDigit

/-- `\s+([^\d+]+)` at the end of both patterns.  Greedy `\s+` consumes the
maximal whitespace run `w`; if the name class then matches at least one
character the capture is that maximal run (nothing follows, so no further
backtracking).  If it does not and `w` has at least two characters, Python
backtracks `\s+` by one and `[^\d+]+` captures exactly that final
whitespace character (the next character is a digit, `'+'`, or the end).
Otherwise the whole match fails.  Returns the captured name and the rest
of the text after the match. -/
def matchSpacesName (s : List Char) : Option (String × List Char) :=
  let w := s.takeWhile pySpace
  let rest := s.dropWhile pySpace
  if w.length = 0 then none
  else
    let r := rest.takeWhile nameChar
    if 0 < r.length then some (⟨r⟩, rest.drop r.length)
    else if 2 ≤ w.length then some (⟨[w.getLastD ' ']⟩, rest)
    else none

/-- `((?:TU-)?(?<!\d)\d{5})` followed (in both patterns) by `\s+`.  In the
`TU-` branch the lookbehind sees `'-'` and always passes.  If the text
starts with `"TU-"` but fewer than five digits follow, backtracking the
optional group retries at `'T'`, which is not a digit, so the match fails
either way.  `\d{5}` is a fixed count; a sixth digit makes the following
`\s+` fail with no backtracking opportunity. -/
def matchTuid (prev : Option Char) (s : List Char) : Option (String × List Char) :=
  match s with
  | 'T' :: 'U' :: '-' :: rest =>
    let d := rest.take 5
    if d.length = 5 && d.all Char.isDigit then
      some (⟨'T' :: 'U' :: '-' :: d⟩, rest.drop 5)
    else none
  | _ =>
    if prevNonDigit prev then
      let d := s.take 5
      if d.length = 5 && d.all Char.isDigit then some (⟨d⟩, s.drop 5)
      else none
    else none

/-- `((?<!\d)\d{1,2})` followed by `\s+`.  With a digit run of length one
or two the greedy quantifier commits to the whole run: giving a digit
back would leave a digit under the following `\s+`, which fails.  A run
of three or more digits fails for the same reason. -/
def matchRid (prev : Option Char) (s : List Char) : Option (String × List Char) :=
  if prevNonDigit prev then
    let d := s.takeWhile Char.isDigit
    if d.length = 1 || d.length = 2 then some (⟨d⟩, s.drop d.length)
    else none
  else none

/-- One attempt of the multi-student pattern at the current position.
The leading `\s*` is maximal-munch: shortening it leaves a whitespace
character under `\d{1,2}`, which fails, so no backtracking arises; the
`\s+` before the ID is maximal-munch for the same reason.  Returns the
three captures and the rest of the text after the match. -/
def matchMultiAt (prev : Option Char) (s : List Char) :
    Option ((String × String × String) × List Char) :=
  let w0 := s.takeWhile pySpace
  let s0 := s.dropWhile pySpace
  let prev0 := if w0.length = 0 then prev else some (w0.getLastD ' ')
  match matchRid prev0 s0 with
  | none => none
  | some (rid, s1) =>
    let w1 := s1.takeWhile pySpace
    let s2 := s1.dropWhile pySpace
    if w1.length = 0 then none
    else
      match matchTuid (some (w1.getLastD ' ')) s2 with
      | none => none
      | some (tuid, s3) =>
        match matchSpacesName s3 with
        | none => none
        | some (name, s4) => some ((rid, tuid, name), s4)

/-- `re.match` of the single-student pattern (anchored at the start of
the text, where the lookbehind context is `none`). -/
def matchSingleAt (s : List Char) : Option (String × String) :=
  let w0 := s.takeWhile pySpace
  let s0 := s.dropWhile pySpace
  let prev0 := if w0.length = 0 then none else some (w0.getLastD ' ')
  match matchTuid prev0 s0 with
  | none => none
  | some (tuid, s1) =>
    match matchSpacesName s1 with
    | none => none
    | some (name, _) => some (tuid, name)

/-- `re.finditer` of the multi-student pattern: leftmost match, then
continue after it (matches are non-overlapping, scanned in text order).
Every match consumes at least one character, so `s.length + 1` units of
fuel always suffice; the fuel only bounds the structural recursion. -/
def finditerAux : Nat → Option Char → List Char → List (String × String × String)
  | 0, _, _ => []
  | _, _, [] => []
  | fuel + 1, prev, c :: rest =>
    match matchMultiAt prev (c :: rest) with
    | some (g, s') =>
      let consumed := (c :: rest).length - s'.length
      g :: finditerAux fuel (some (((c :: rest).take consumed).getLastD c)) s'
    | none => finditerAux fuel (some c) rest

def finditerStudents (s : String) : List (String × String × String) :=
  finditerAux (s.toList.length + 1) none s.toList

/-- A Python value used in the `LineNumber` position of a student tuple:
`get_students` stores the captured string, `get_lonely_students` stores
the literal `int` 1. -/
inductive LineNo where
  | int : Int → LineNo
  | str : String → LineNo
deriving DecidableEq, Repr

abbrev Student := LineNo × String × String

/-- `is_number` (parser.py lines 308-320), modelled on the all-digit
strings it receives from the `\d{1,2}` capture (where Python's `int()`
always succeeds; the `float` fallback and failure path are unreachable
from `get_students`). -/
def is_number (s : String) : Option Int :=
  if s.toList ≠ [] ∧ s.toList.all Char.isDigit then
    some (Int.ofNat (s.toList.foldl (fun a c => 10 * a + (c.toNat - 48)) 0))
  else none

/-- The body of the `for stud_match in re.finditer(...)` loop of
`get_students` (parser.py lines 228-243): the accumulator carries the
student list, `last_lineno` and the number of warnings logged so far.
On the first match the code sets `last_lineno = 1` without reading the
capture; on later matches it warns when the parsed line number is not
the successor of the previous one. -/
def studentsStep (acc : List Student × Int × Nat)
    (m : String × String × String) : List Student × Int × Nat :=
  if acc.1.length = 0 then
    (acc.1 ++ [(LineNo.str m.1, m.2.1, m.2.2)], (1 : Int), acc.2.2)
  else
    let cur_lineno := (is_number m.1).getD 0
    let warns :=
      if acc.2.1 ≠ 1 ∧ cur_lineno ≠ acc.2.1 + 1 then acc.2.2 + 1 else acc.2.2
    (acc.1 ++ [(LineNo.str m.1, m.2.1, m.2.2)], cur_lineno, warns)

/-- `get_students` (parser.py lines 208-245): one student appended per
`finditer` match, in scan order; the line-number bookkeeping only decides
whether a non-consecutive warning is logged (warnings are counted here). -/
def get_students (body : List String) : List Student × Nat :=
  let r := (finditerStudents (String.intercalate " " body)).foldl
    studentsStep ([], 1, 0)
  (r.1, r.2.2)

/-- `get_lonely_students` (parser.py lines 183-205): empty body returns
no students before the `assert len(body) < 5` is reached; the assertion
raising on a body of five or more tokens is modelled as `none`; on a
match one student is emitted with LineNumber the literal 1, on no match
none are (a warning is logged, never a raise). -/
def get_lonely_students (body : List String) : Option (List Student) :=
  if body.length = 0 then some []
  else if body.length < 5 then
    match matchSingleAt (String.intercalate " " body).toList with
    | none => some []
    | some (tuid, name) => some [(LineNo.int 1, tuid, name)]
  else none

/-- The body of the `for i, course in enumerate(courses)` loop of
`get_courses_info` (parser.py lines 132-145) for one course. -/
def courseStep (course : Course) : Option (List String × List Student) :=
  if "Email" ∉ course then some (course, [])
  else do
    let hb ← split_head_body course
    let students ←
      if hb.2.length < 5 then get_lonely_students hb.2
      else some (get_students hb.2).1
    some (hb.1, students)

/-- `get_courses_info` (parser.py lines 116-146). -/
def get_courses_info : List Course → Option (List (List String × List Student))
  | [] => some []
  | c :: cs => do
    let r ← courseStep c
    let rs ← get_courses_info cs
    some (r :: rs)

def COURSE_HEADER_KEYS : List String :=
  ["Course", "Semester", "Course Title", "Instructor", "Section", "Day/Time:"]

def STUD_HEADER : List String :=
  ["StudentID", "Full Name", "Cell #", "Email"]

/-- Python `nxt.strip(": ")`: remove leading and trailing `':'` and `' '`. -/
def pyStripColonSpace (s : String) : String :=
  let cs := s.toList.dropWhile (fun c => c = ':' || c = ' ')
  ⟨(cs.reverse.dropWhile (fun c => c = ':' || c = ' ')).reverse⟩

/-- The `while i < len(tokens)` loop of `parse_header_keys`
(parser.py lines 286-303), with the `used_keys` set as an explicit
argument; the result is the insertion-ordered dict as an association
list.  The first argument bounds the number of remaining loop
iterations (each iteration advances `i` by at least one, so
`tokens.length` iterations always suffice); it only makes the
recursion structural. -/
def phkAux : Nat → List String → List String → List (String × String)
  | 0, _, _ => []
  | _ + 1, [], _ => []
  | fuel + 1, elt :: rest, used =>
    if elt ∈ STUD_HEADER then []
    else if elt ∈ COURSE_HEADER_KEYS ∧ elt ∉ used then
      match rest with
      | [] => [(elt, "")]
      | nxt :: rest2 =>
        if nxt ∉ COURSE_HEADER_KEYS ∧ nxt ∉ STUD_HEADER then
          (elt, pyStripColonSpace nxt) :: phkAux fuel rest2 (used ++ [elt])
        else
          (elt, "") :: phkAux fuel (nxt :: rest2) (used ++ [elt])
    else phkAux fuel rest used

/-- `parse_header_keys` (parser.py lines 277-305). -/
def parse_header_keys (tokens : List String) : List (String × String) :=
  phkAux tokens.length tokens []

/-- A cell value of an output row: header values are strings, `crsid` is
the course's position, `LineNo` carries whichever Python value the
extractor produced. -/
inductive RowVal where
  | s : String → RowVal
  | n : Nat → RowVal
  | ln : LineNo → RowVal
deriving DecidableEq, Repr

abbrev Row := List (String × RowVal)

/-- The rows contributed by course number `i` in `build_long_table`
(the `len(chunk) != 3` defensive skip cannot fire here: students are
3-tuples by construction). -/
def courseRows (i : Nat) (info : List String × List Student) : List Row :=
  let hdr := (parse_header_keys info.1).map (fun kv => (kv.1, RowVal.s kv.2))
      ++ [("crsid", RowVal.n i)]
  info.2.map fun chunk =>
    hdr ++ [("LineNo", RowVal.ln chunk.1), ("StudentID", RowVal.s chunk.2.1),
            ("FullName", RowVal.s chunk.2.2)]

/-- `build_long_table` (parser.py lines 248-274): the row list handed to
`pd.DataFrame`, in course order then student order. -/
def build_long_table (crs : List (List String × List Student)) : List Row :=
  crs.enum.flatMap fun p => courseRows p.1 p.2

/-- Total number of pages inside the finalized course blocks of a
segmentation state. -/
def blockPages (st : SegState) : Nat :=
  (st.courses.map List.length).sum

/-- Total number of pages accounted for by a segmentation state
(finalized blocks plus the current buffer). -/
def pagesIn (st : SegState) : Nat :=
  blockPages st + st.course.length

/-- `courseStep` never fails (proved below), so it has a total
companion used to state what `get_courses_info` returns. -/
def courseStepD (c : Course) : List String × List Student :=
  (courseStep c).getD (c, [])

/-! ## Lemmas about `firstIdx` and `pyIndex` -/

theorem firstIdx_cons_self (a : String) (l : List String) :
    firstIdx a (a :: l) = 0 := by
  simp [firstIdx]

theorem firstIdx_append_of_not_mem (a : String) {l1 : List String}
    (l2 : List String) (h : a ∉ l1) :
    firstIdx a (l1 ++ l2) = l1.length + firstIdx a l2 := by
  induction l1 with
  | nil => simp
  | cons b l ih =>
    simp only [List.mem_cons, not_or] at h
    simp only [List.cons_append, List.append_eq, firstIdx, List.length_cons]
    rw [if_neg (fun hba => h.1 hba.symm), ih h.2]
    omega

theorem pyIndex_of_mem {a : String} {l : List String} (h : a ∈ l) :
    pyIndex a l = some (firstIdx a l) := by
  simp [pyIndex, h]

/-! ## Lemmas about the page-segmentation loop -/

theorem fcpAux_append (l1 l2 : Pages) (idx : Nat) (st : SegState) :
    fcpAux idx st (l1 ++ l2) = fcpAux (idx + l1.length) (fcpAux idx st l1) l2 := by
  induction l1 generalizing idx st with
  | nil => simp [fcpAux]
  | cons p ps ih =>
    simp only [List.cons_append, List.append_eq, fcpAux, List.length_cons]
    rw [ih]
    congr 1
    omega

theorem fcpRun_take_succ (pages : Pages) (k : Nat) (h : k < pages.length) :
    fcpRun (pages.take (k + 1)) =
      fcpStep (fcpRun (pages.take k)) k (pages.getD k []) := by
  have hk : (pages.take k).length = k := by
    simp [List.length_take, Nat.min_eq_left (Nat.le_of_lt h)]
  have hget : pages[k]? = some (pages.getD k []) := by
    rw [List.getD_eq_getElem?_getD, List.getElem?_eq_getElem h]
    rfl
  rw [fcpRun, List.take_succ, hget]
  simp only [Option.toList_some]
  rw [fcpAux_append, fcpAux, fcpAux]
  simp [fcpRun, hk]

theorem fcpStep_first (st : SegState) (idx : Nat) (page : Page)
    (h : st.course = []) :
    fcpStep st idx page =
      if "Total" ∈ page then ⟨st.courses ++ [[page]], [], st.warns⟩
      else ⟨st.courses, [page], st.warns⟩ := by
  simp [fcpStep, h]

theorem fcpStep_cont_email (st : SegState) (idx : Nat) (page : Page)
    (h : st.course ≠ []) (he : "Email" ∈ page) :
    fcpStep st idx page =
      if "Total" ∈ stripEmail page ∨ stripEmail page = [] then
        ⟨st.courses ++ [st.course ++ [stripEmail page]], [], st.warns⟩
      else ⟨st.courses, st.course ++ [stripEmail page], st.warns⟩ := by
  simp [fcpStep, h, he, List.length_eq_zero]

theorem fcpStep_cont_noemail (st : SegState) (idx : Nat) (page : Page)
    (h : st.course ≠ []) (he : "Email" ∉ page) :
    fcpStep st idx page =
      if "Total" ∈ page then
        ⟨st.courses ++ [st.course ++ [page]], [], st.warns ++ [idx]⟩
      else ⟨st.courses, st.course ++ [page], st.warns ++ [idx]⟩ := by
  simp [fcpStep, h, he]

theorem pagesIn_fcpStep (st : SegState) (idx : Nat) (page : Page) :
    pagesIn (fcpStep st idx page) = pagesIn st + 1 := by
  by_cases h : st.course = []
  · rw [fcpStep_first st idx page h]
    split <;> simp [pagesIn, blockPages, h]
  · by_cases he : "Email" ∈ page
    · rw [fcpStep_cont_email st idx page h he]
      split <;> simp [pagesIn, blockPages] <;> omega
    · rw [fcpStep_cont_noemail st idx page h he]
      split <;> simp [pagesIn, blockPages] <;> omega

theorem pagesIn_fcpAux (l : Pages) (idx : Nat) (st : SegState) :
    pagesIn (fcpAux idx st l) = pagesIn st + l.length := by
  induction l generalizing idx st with
  | nil => simp [fcpAux]
  | cons p ps ih => simp [fcpAux, ih, pagesIn_fcpStep]; omega

theorem pagesIn_fcpRun_take (pages : Pages) (k : Nat) (h : k ≤ pages.length) :
    pagesIn (fcpRun (pages.take k)) = k := by
  have := pagesIn_fcpAux (pages.take k) 0 ⟨[], [], []⟩
  simpa [fcpRun, pagesIn, blockPages, List.length_take, Nat.min_eq_left h] using this

theorem warns_fcpStep (st : SegState) (idx : Nat) (page : Page) :
    ∃ w, (fcpStep st idx page).warns = st.warns ++ w := by
  by_cases h : st.course = []
  · rw [fcpStep_first st idx page h]; split <;> exact ⟨[], by simp⟩
  · by_cases he : "Email" ∈ page
    · rw [fcpStep_cont_email st idx page h he]; split <;> exact ⟨[], by simp⟩
    · rw [fcpStep_cont_noemail st idx page h he]
      split <;> exact ⟨[idx], by simp⟩

theorem warns_fcpAux (l : Pages) (idx : Nat) (st : SegState) :
    ∃ w, (fcpAux idx st l).warns = st.warns ++ w := by
  induction l generalizing idx st with
  | nil => exact ⟨[], by simp [fcpAux]⟩
  | cons p ps ih =>
    obtain ⟨w1, hw1⟩ := warns_fcpStep st idx p
    obtain ⟨w2, hw2⟩ := ih (idx + 1) (fcpStep st idx p)
    exact ⟨w1 ++ w2, by simp [fcpAux, hw2, hw1]⟩

/-- If every page finalizes the course it lands on whenever it arrives as
a continuation page, the accumulation loop keeps at most one page in its
buffer and every finalized block has at most two pages. -/
theorem fcpAux_blocks_le_two (l : Pages) (idx : Nat) (st : SegState)
    (hl : ∀ p ∈ l, ("Email" ∈ p → (stripEmail p = [] ∨ "Total" ∈ stripEmail p)) ∧
      ("Email" ∉ p → "Total" ∈ p))
    (h1 : st.course.length ≤ 1)
    (h2 : ∀ c ∈ st.courses, c.length ≤ 2) :
    (∀ c ∈ (fcpAux idx st l).courses, c.length ≤ 2) ∧
      (fcpAux idx st l).course.length ≤ 1 := by
  induction l generalizing idx st with
  | nil => exact ⟨h2, h1⟩
  | cons p ps ih =>
    have hp := hl p (List.mem_cons_self p ps)
    have hps : ∀ q ∈ ps, ("Email" ∈ q → (stripEmail q = [] ∨ "Total" ∈ stripEmail q)) ∧
        ("Email" ∉ q → "Total" ∈ q) :=
      fun q hq => hl q (List.mem_cons_of_mem p hq)
    rw [fcpAux]
    by_cases hc : st.course = []
    · rw [fcpStep_first st idx p hc]
      by_cases ht : "Total" ∈ p
      · rw [if_pos ht]
        refine ih (idx + 1) _ hps (by simp) ?_
        intro c hcmem
        rcases List.mem_append.mp hcmem with hcin | hcin
        · exact h2 c hcin
        · simp only [List.mem_singleton] at hcin
          simp [hcin]
      · rw [if_neg ht]
        exact ih (idx + 1) _ hps (by simp) h2
    · have hlen : st.course.length = 1 := by
        rcases Nat.lt_or_ge st.course.length 1 with hlt | hge
        · exact absurd (List.length_eq_zero.mp (by omega)) hc
        · omega
      by_cases he : "Email" ∈ p
      · rw [fcpStep_cont_email st idx p hc he]
        rw [if_pos ((hp.1 he).elim Or.inr Or.inl)]
        refine ih (idx + 1) _ hps (by simp) ?_
        intro c hcmem
        rcases List.mem_append.mp hcmem with hcin | hcin
        · exact h2 c hcin
        · simp only [List.mem_singleton] at hcin
          simp [hcin, hlen]
      · rw [fcpStep_cont_noemail st idx p hc he]
        rw [if_pos (hp.2 he)]
        refine ih (idx + 1) _ hps (by simp) ?_
        intro c hcmem
        rcases List.mem_append.mp hcmem with hcin | hcin
        · exact h2 c hcin
        · simp only [List.mem_singleton] at hcin
          simp [hcin, hlen]

theorem make_one_of_length_le_two {c : List Page} (h : c.length ≤ 2) :
    ∃ r, make_one c = some r := by
  match c with
  | [] => exact ⟨[], rfl⟩
  | [p] => exact ⟨p, rfl⟩
  | [p, q] => exact ⟨p ++ q, rfl⟩
  | p :: q :: r :: t => simp at h

theorem mapM_make_one_of_le_two {l : List (List Page)}
    (h : ∀ c ∈ l, c.length ≤ 2) : ∃ r, l.mapM make_one = some r := by
  induction l with
  | nil => exact ⟨[], rfl⟩
  | cons c cs ih =>
    obtain ⟨r1, hr1⟩ := make_one_of_length_le_two (h c (List.mem_cons_self c cs))
    obtain ⟨rs, hrs⟩ := ih fun d hd => h d (List.mem_cons_of_mem c hd)
    exact ⟨r1 :: rs, by rw [List.mapM_cons, hr1, hrs]; rfl⟩

/-- Whatever state the loop starts in, the pages it appends (each either
verbatim or with its header stripped at `"Email"`) end up, in order,
distributed between the finalized blocks and the final buffer. -/
theorem fcpAux_conservation (l : Pages) (idx : Nat) (st : SegState) :
    ∃ proc, List.Forall₂ (fun p q => q = p ∨ q = stripEmail p) l proc ∧
      (fcpAux idx st l).courses.flatten ++ (fcpAux idx st l).course =
        st.courses.flatten ++ st.course ++ proc := by
  induction l generalizing idx st with
  | nil => exact ⟨[], List.Forall₂.nil, by simp [fcpAux]⟩
  | cons p ps ih =>
    have step : ∃ q, (q = p ∨ q = stripEmail p) ∧
        (fcpStep st idx p).courses.flatten ++ (fcpStep st idx p).course =
          st.courses.flatten ++ st.course ++ [q] := by
      by_cases hc : st.course = []
      · refine ⟨p, Or.inl rfl, ?_⟩
        rw [fcpStep_first st idx p hc]
        split <;> simp [hc]
      · by_cases he : "Email" ∈ p
        · refine ⟨stripEmail p, Or.inr rfl, ?_⟩
          rw [fcpStep_cont_email st idx p hc he]
          split <;> simp
        · refine ⟨p, Or.inl rfl, ?_⟩
          rw [fcpStep_cont_noemail st idx p hc he]
          split <;> simp
    obtain ⟨q, hq, hstep⟩ := step
    obtain ⟨proc, hproc, heq⟩ := ih (idx + 1) (fcpStep st idx p)
    refine ⟨q :: proc, List.Forall₂.cons hq hproc, ?_⟩
    rw [fcpAux, heq, hstep]
    simp

/-! ## Claim C1 -/

/-- C1, counterexample: on the three-page input below, only the third
page carries a surviving `"Total"`, so `find_course_pages` accumulates a
single raw course block of three pages and the flattening assertion in
`make_one` fires (the call raises, modelled as `none`). -/
theorem C1_counterexample :
    (find_course_pages_raw [["a"], ["Email", "b"], ["Email", "Total"]]).map
        List.length = [3] ∧
      find_course_pages [["a"], ["Email", "b"], ["Email", "Total"]] = none := by
  decide

/-- C1 (amended): every raw course block accumulated by
`find_course_pages` contains at most 2 pages — and hence `make_one`'s
at-most-two-pages assertion never fires — provided every page, when it
arrives as a continuation page, finalizes the current course: after
stripping through `"Email"` it is empty or still contains `"Total"`, and
a page without `"Email"` contains `"Total"`.  Without that proviso a
course block can grow beyond two pages and the assertion raises. -/
theorem C1_at_most_two_pages (pages : Pages)
    (h : ∀ p ∈ pages,
      ("Email" ∈ p → (stripEmail p = [] ∨ "Total" ∈ stripEmail p)) ∧
        ("Email" ∉ p → "Total" ∈ p)) :
    (∀ c ∈ find_course_pages_raw pages, c.length ≤ 2) ∧
      ∃ r, find_course_pages pages = some r := by
  have hinv := fcpAux_blocks_le_two pages 0 ⟨[], [], []⟩ h (by simp) (by simp)
  refine ⟨hinv.1, ?_⟩
  exact mapM_make_one_of_le_two hinv.1

theorem C1_at_most_two_pages_witness :
    (∀ c ∈ find_course_pages_raw [["a", "Total"], ["b", "Email", "Total"]],
        c.length ≤ 2) ∧
      ∃ r, find_course_pages [["a", "Total"], ["b", "Email", "Total"]] = some r :=
  C1_at_most_two_pages [["a", "Total"], ["b", "Email", "Total"]] (by decide)

/-! ## Claim C2 -/

/-- C2, counterexample: for the single-page input `[["a"]]` the page is
appended to the course buffer (it is still there when the loop ends), yet
the output contains no course block at all and no warning was logged:
the accumulated material is silently discarded. -/
theorem C2_counterexample :
    (fcpRun [["a"]]).course = [["a"]] ∧
      find_course_pages_raw [["a"]] = [] ∧
      (fcpRun [["a"]]).warns = [] ∧
      find_course_pages [["a"]] = some [] := by
  decide

/-- C2 (amended): every page appended to the course buffer survives, in
its appended form (verbatim or `"Email"`-stripped), either into some
course block of the output or into the trailing unfinalized buffer; that
trailing buffer — e.g. a final course whose last page lacks `"Total"` —
is dropped from the output without a warning (counterexample above). -/
theorem C2_no_silent_discard_amended (pages : Pages) :
    ∃ proc, List.Forall₂ (fun p q => q = p ∨ q = stripEmail p) pages proc ∧
      (find_course_pages_raw pages).flatten ++ (fcpRun pages).course = proc := by
  obtain ⟨proc, hproc, heq⟩ := fcpAux_conservation pages 0 ⟨[], [], []⟩
  exact ⟨proc, hproc, by simpa [find_course_pages_raw, fcpRun] using heq⟩

/-! ## Claim C5 -/

/-- C5, counterexample: page 1 of the input below contains `"Total"`,
but only before its first `"Email"`, so the continuation-stripping
removes it: no course boundary falls after page 1 (indeed no course is
ever finalized: the output block list is empty, so no prefix of it can
cover pages 0..1). -/
theorem C5_counterexample :
    "Total" ∈ [["a"], ["Total", "Email", "b"]].getD 1 [] ∧
      find_course_pages_raw [["a"], ["Total", "Email", "b"]] = [] ∧
      blockPages (fcpRun ([["a"], ["Total", "Email", "b"]].take 2)) = 0 := by
  decide

/-- C5 (amended): a course boundary falls exactly after page `k` (the
finalized blocks of the run over pages `0..k` cover exactly `k + 1`
pages) iff the page *as appended* contains `"Total"` — i.e. `"Total"`
survives the continuation stripping — or stripping left a continuation
page empty.  A continuation page with `"Email"` is appended with all
tokens up to and including the first `"Email"` stripped and no warning;
a continuation page without `"Email"` is appended unmodified and a
warning carrying its index is recorded (and survives to the end of the
run). -/
theorem C5_boundary_and_stripping (pages : Pages) (k : Nat)
    (h : k < pages.length) (st : SegState) (page : Page)
    (hst : st = fcpRun (pages.take k)) (hpage : page = pages.getD k []) :
    ((st.course ≠ [] ∧ "Email" ∈ page ∧
        ("Total" ∈ stripEmail page ∨ stripEmail page = []))
      ∨ ((st.course = [] ∨ "Email" ∉ page) ∧ "Total" ∈ page)
      ↔ blockPages (fcpRun (pages.take (k + 1))) = k + 1) ∧
    (st.course ≠ [] → "Email" ∈ page →
      (fcpRun (pages.take (k + 1))).warns = st.warns ∧
      ((fcpRun (pages.take (k + 1))).course = st.course ++ [stripEmail page] ∨
        (fcpRun (pages.take (k + 1))).courses =
          st.courses ++ [st.course ++ [stripEmail page]])) ∧
    (st.course ≠ [] → "Email" ∉ page →
      (fcpRun (pages.take (k + 1))).warns = st.warns ++ [k] ∧
      k ∈ (fcpRun pages).warns ∧
      ((fcpRun (pages.take (k + 1))).course = st.course ++ [page] ∨
        (fcpRun (pages.take (k + 1))).courses =
          st.courses ++ [st.course ++ [page]])) := by
  have hk := pagesIn_fcpRun_take pages k (Nat.le_of_lt h)
  have hs := fcpRun_take_succ pages k h
  rw [← hst, ← hpage] at hs
  have hbp : blockPages st + st.course.length = k := by
    rw [hst]
    simpa [pagesIn] using hk
  have hsplitAll : ∀ w', (fcpRun (pages.take (k + 1))).warns = w' →
      ∀ x, x ∈ w' → x ∈ (fcpRun pages).warns := by
    intro w' hw' x hx
    have h1 : fcpRun pages =
        fcpAux (0 + (pages.take (k + 1)).length) (fcpRun (pages.take (k + 1)))
          (pages.drop (k + 1)) := by
      conv_lhs => rw [fcpRun, ← List.take_append_drop (k + 1) pages]
      rw [fcpAux_append]
      rfl
    obtain ⟨w, hw⟩ := warns_fcpAux (pages.drop (k + 1))
      (0 + (pages.take (k + 1)).length) (fcpRun (pages.take (k + 1)))
    rw [h1, hw, hw']
    exact List.mem_append_left w hx
  by_cases hc : st.course = []
  · rw [hs, fcpStep_first st k page hc]
    by_cases ht : "Total" ∈ page
    · rw [if_pos ht]
      refine ⟨iff_of_true (Or.inr ⟨Or.inl hc, ht⟩) ?_, ?_, ?_⟩
      · simp only [blockPages, List.map_append, List.sum_append, hc] at hbp ⊢
        simp [blockPages] at hbp ⊢
        omega
      · intro hne _; exact absurd hc hne
      · intro hne _; exact absurd hc hne
    · rw [if_neg ht]
      refine ⟨iff_of_false ?_ ?_, ?_, ?_⟩
      · rintro (⟨hne, _⟩ | ⟨_, ht'⟩)
        · exact hne hc
        · exact ht ht'
      · intro hcontra
        have hbr : blockPages ⟨st.courses, [page], st.warns⟩ = blockPages st := rfl
        rw [hbr] at hcontra
        simp only [hc, List.length_nil] at hbp
        omega
      · intro hne _; exact absurd hc hne
      · intro hne _; exact absurd hc hne
  · by_cases he : "Email" ∈ page
    · rw [hs, fcpStep_cont_email st k page hc he]
      by_cases hcond : "Total" ∈ stripEmail page ∨ stripEmail page = []
      · rw [if_pos hcond]
        refine ⟨iff_of_true (Or.inl ⟨hc, he, hcond⟩) ?_, ?_, ?_⟩
        · simp only [blockPages, List.map_append, List.sum_append,
            List.map_cons, List.sum_cons, List.length_append,
            List.length_cons, List.length_nil, List.map_nil, List.sum_nil]
          simp only [blockPages] at hbp
          omega
        · exact fun _ _ => ⟨rfl, Or.inr rfl⟩
        · intro _ hne; exact absurd he hne
      · rw [if_neg hcond]
        refine ⟨iff_of_false ?_ ?_, ?_, ?_⟩
        · rintro (⟨_, _, hcond'⟩ | ⟨hor, _⟩)
          · exact hcond hcond'
          · rcases hor with hc' | he'
            · exact hc hc'
            · exact he' he
        · intro hcontra
          have hbr : blockPages ⟨st.courses, st.course ++ [stripEmail page],
              st.warns⟩ = blockPages st := rfl
          rw [hbr] at hcontra
          omega
        · exact fun _ _ => ⟨rfl, Or.inl rfl⟩
        · intro _ hne; exact absurd he hne
    · rw [hs, fcpStep_cont_noemail st k page hc he]
      by_cases ht : "Total" ∈ page
      · rw [if_pos ht]
        have hwarns : (fcpRun (pages.take (k + 1))).warns = st.warns ++ [k] := by
          rw [hs, fcpStep_cont_noemail st k page hc he, if_pos ht]
        refine ⟨iff_of_true (Or.inr ⟨Or.inr he, ht⟩) ?_, ?_, ?_⟩
        · simp only [blockPages, List.map_append, List.sum_append,
            List.map_cons, List.sum_cons, List.length_append,
            List.length_cons, List.length_nil, List.map_nil, List.sum_nil]
          simp only [blockPages] at hbp
          omega
        · intro _ hee; exact absurd hee he
        · refine fun _ _ => ⟨rfl, ?_, Or.inr rfl⟩
          exact hsplitAll (st.warns ++ [k]) hwarns k (by simp)
      · rw [if_neg ht]
        have hwarns : (fcpRun (pages.take (k + 1))).warns = st.warns ++ [k] := by
          rw [hs, fcpStep_cont_noemail st k page hc he, if_neg ht]
        refine ⟨iff_of_false ?_ ?_, ?_, ?_⟩
        · rintro (⟨_, he', _⟩ | ⟨_, ht'⟩)
          · exact he he'
          · exact ht ht'
        · intro hcontra
          have hbr : blockPages ⟨st.courses, st.course ++ [page],
              st.warns ++ [k]⟩ = blockPages st := rfl
          rw [hbr] at hcontra
          omega
        · intro _ hee; exact absurd hee he
        · refine fun _ _ => ⟨rfl, ?_, Or.inl rfl⟩
          exact hsplitAll (st.warns ++ [k]) hwarns k (by simp)

theorem C5_boundary_and_stripping_witness :
    blockPages (fcpRun ([["a"], ["Email", "Total"]].take 2)) = 2 :=
  ((C5_boundary_and_stripping [["a"], ["Email", "Total"]] 1 (by decide)
    (fcpRun ([["a"], ["Email", "Total"]].take 1)) (["Email", "Total"])
    rfl (by decide)).1).mp (by decide)

/-! ## Claim C6 -/

/-- C6: the course block merger returns `[]` for zero pages, the page
itself for one page, the in-order concatenation for two pages, and
raises (assertion failure, modelled as `none`) for every other count. -/
theorem C6_make_one_spec :
    make_one ([] : List Page) = some [] ∧
      (∀ P : Page, make_one [P] = some P) ∧
      (∀ P Q : Page, make_one [P, Q] = some (P ++ Q)) ∧
      (∀ c : List Page, 2 < c.length → make_one c = none) := by
  refine ⟨rfl, fun P => rfl, fun P Q => rfl, ?_⟩
  intro c hc
  match c with
  | [] => simp at hc
  | [p] => simp at hc
  | [p, q] => simp at hc
  | p :: q :: r :: t => rfl

theorem C6_make_one_spec_witness : make_one [["A"], ["B"], ["C"]] = none :=
  C6_make_one_spec.2.2.2 [["A"], ["B"], ["C"]] (by decide)

/-! ## Claim C3 -/

theorem firstIdx_append_cons (a : String) (l1 l2 : List String) (h : a ∉ l1) :
    firstIdx a (l1 ++ a :: l2) = l1.length := by
  rw [firstIdx_append_of_not_mem a (a :: l2) h, firstIdx_cons_self]
  omega

/-- C3: on a course of the shape
`[...,"StudentID",h1,h2,"Email",b1,b2,"Total",...]` (first occurrences
in that order) `split_head_body` returns the tokens strictly before the
first `"StudentID"` as header and the tokens strictly between the first
`"Email"` and the first `"Total"` as body; when `"Total"` is absent the
body extends to the end of the course. -/
theorem C3_split_head_body_shape :
    (∀ (pre : List String) (h1 h2 b1 b2 : String) (post : List String),
      "StudentID" ∉ pre →
      "Email" ∉ pre ++ ["StudentID", h1, h2] →
      "Total" ∉ pre ++ ["StudentID", h1, h2, "Email", b1, b2] →
      split_head_body
          (pre ++ ["StudentID", h1, h2, "Email", b1, b2, "Total"] ++ post) =
        some (pre, [b1, b2])) ∧
    (∀ (pre : List String) (h1 h2 : String) (body : List String),
      "StudentID" ∉ pre →
      "Email" ∉ pre ++ ["StudentID", h1, h2] →
      "Total" ∉ pre ++ ["StudentID", h1, h2, "Email"] ++ body →
      split_head_body (pre ++ ["StudentID", h1, h2, "Email"] ++ body) =
        some (pre, body)) := by
  constructor
  · intro pre h1 h2 b1 b2 post hsid hem htot
    have hd1 : pre ++ ["StudentID", h1, h2, "Email", b1, b2, "Total"] ++ post
        = pre ++ "StudentID" :: (h1 :: h2 :: "Email" :: b1 :: b2 :: "Total" :: post) := by
      simp
    have hd2 : pre ++ ["StudentID", h1, h2, "Email", b1, b2, "Total"] ++ post
        = (pre ++ ["StudentID", h1, h2]) ++ "Email" :: (b1 :: b2 :: "Total" :: post) := by
      simp
    have hd3 : pre ++ ["StudentID", h1, h2, "Email", b1, b2, "Total"] ++ post
        = (pre ++ ["StudentID", h1, h2, "Email", b1, b2]) ++ "Total" :: post := by
      simp
    have hd4 : pre ++ ["StudentID", h1, h2, "Email", b1, b2, "Total"] ++ post
        = (pre ++ ["StudentID", h1, h2, "Email"]) ++ (b1 :: b2 :: "Total" :: post) := by
      simp
    have hm1 : "StudentID" ∈ pre ++ ["StudentID", h1, h2, "Email", b1, b2, "Total"] ++ post := by
      rw [hd1]; exact List.mem_append_right _ (List.mem_cons_self _ _)
    have hm2 : "Email" ∈ pre ++ ["StudentID", h1, h2, "Email", b1, b2, "Total"] ++ post := by
      rw [hd2]; exact List.mem_append_right _ (List.mem_cons_self _ _)
    have hm3 : "Total" ∈ pre ++ ["StudentID", h1, h2, "Email", b1, b2, "Total"] ++ post := by
      rw [hd3]; exact List.mem_append_right _ (List.mem_cons_self _ _)
    have hi1 : firstIdx "StudentID"
        (pre ++ ["StudentID", h1, h2, "Email", b1, b2, "Total"] ++ post) = pre.length := by
      rw [hd1, firstIdx_append_cons _ _ _ hsid]
    have hi2 : firstIdx "Email"
        (pre ++ ["StudentID", h1, h2, "Email", b1, b2, "Total"] ++ post)
          = pre.length + 3 := by
      rw [hd2, firstIdx_append_cons _ _ _ hem]
      simp
    have hi3 : firstIdx "Total"
        (pre ++ ["StudentID", h1, h2, "Email", b1, b2, "Total"] ++ post)
          = pre.length + 6 := by
      rw [hd3, firstIdx_append_cons _ _ _ htot]
      simp
    have htake : (pre ++ ["StudentID", h1, h2, "Email", b1, b2, "Total"] ++ post).take
        pre.length = pre := by
      rw [hd1, List.take_append_of_le_length (Nat.le_refl _), List.take_length]
    have hdrop : (pre ++ ["StudentID", h1, h2, "Email", b1, b2, "Total"] ++ post).drop
        (pre.length + 4) = b1 :: b2 :: "Total" :: post := by
      rw [hd4, List.drop_left' (by simp)]
    simp only [split_head_body, pyIndex, hm1, hm2, hm3, if_pos, if_neg,
      not_true_eq_false, not_false_eq_true, if_true, if_false, hi1, hi2, hi3,
      Option.some_bind, Option.getD_some, pySlice]
    simp only [Option.bind_eq_bind, Option.some_bind]
    rw [htake]
    have harith : pre.length + 6 - (pre.length + 3 + 1) = 2 := by omega
    have harith2 : pre.length + 3 + 1 = pre.length + 4 := by omega
    rw [harith, harith2, hdrop]
    rfl
  · intro pre h1 h2 body hsid hem htot
    have hd1 : pre ++ ["StudentID", h1, h2, "Email"] ++ body
        = pre ++ "StudentID" :: (h1 :: h2 :: "Email" :: body) := by
      simp
    have hd2 : pre ++ ["StudentID", h1, h2, "Email"] ++ body
        = (pre ++ ["StudentID", h1, h2]) ++ "Email" :: body := by
      simp
    have hm1 : "StudentID" ∈ pre ++ ["StudentID", h1, h2, "Email"] ++ body := by
      rw [hd1]; exact List.mem_append_right _ (List.mem_cons_self _ _)
    have hm2 : "Email" ∈ pre ++ ["StudentID", h1, h2, "Email"] ++ body := by
      rw [hd2]; exact List.mem_append_right _ (List.mem_cons_self _ _)
    have hi1 : firstIdx "StudentID" (pre ++ ["StudentID", h1, h2, "Email"] ++ body)
        = pre.length := by
      rw [hd1, firstIdx_append_cons _ _ _ hsid]
    have hi2 : firstIdx "Email" (pre ++ ["StudentID", h1, h2, "Email"] ++ body)
        = pre.length + 3 := by
      rw [hd2, firstIdx_append_cons _ _ _ hem]
      simp
    have hlen : (pre ++ ["StudentID", h1, h2, "Email"] ++ body).length
        = pre.length + 4 + body.length := by
      simp
      omega
    have htake : (pre ++ ["StudentID", h1, h2, "Email"] ++ body).take
        pre.length = pre := by
      rw [hd1, List.take_append_of_le_length (Nat.le_refl _), List.take_length]
    have hdrop : (pre ++ ["StudentID", h1, h2, "Email"] ++ body).drop
        (pre.length + 4) = body := by
      rw [List.drop_left' (by simp)]
    simp only [split_head_body, pyIndex, hm1, hm2, htot, hi1, hi2,
      not_true_eq_false, not_false_eq_true, if_true, if_false,
      Option.some_bind, Option.getD_none, pySlice]
    simp only [Option.bind_eq_bind, Option.some_bind]
    rw [htake, hlen]
    have harith : pre.length + 4 + body.length - (pre.length + 3 + 1) = body.length := by
      omega
    have harith2 : pre.length + 3 + 1 = pre.length + 4 := by omega
    rw [harith, harith2, hdrop, List.take_length]

theorem C3_split_head_body_shape_witness :
    split_head_body ["c", "StudentID", "x", "y", "Email", "u", "v", "Total", "z"] =
        some (["c"], ["u", "v"]) ∧
      split_head_body ["c", "StudentID", "x", "y", "Email", "u", "v"] =
        some (["c"], ["u", "v"]) :=
  ⟨C3_split_head_body_shape.1 ["c"] "x" "y" "u" "v" ["z"]
      (by decide) (by decide) (by decide),
    C3_split_head_body_shape.2 ["c"] "x" "y" ["u", "v"]
      (by decide) (by decide) (by decide)⟩

/-! ## Claim C10 -/

/-- Every `.index` call in `split_head_body` is guarded (`in` checks, or
the `try/except` around `"Total"`), so the function never raises. -/
theorem split_head_body_isSome (course : Course) :
    ∃ hb, split_head_body course = some hb := by
  by_cases h1 : "StudentID" ∈ course <;> by_cases h2 : "Email" ∈ course <;>
    simp [split_head_body, pyIndex, h1, h2]

/-- C10: `split_head_body` is total — it returns a header/body pair for
every token list without raising — and when both `"StudentID"` and
`"Email"` occur but the first `"Total"` precedes the first `"Email"`,
the returned body is the empty list (the Python slice with start after
stop is empty). -/
theorem C10_split_head_body_total (course : Course) :
    ∃ hb, split_head_body course = some hb ∧
      ("StudentID" ∈ course → "Email" ∈ course → "Total" ∈ course →
        firstIdx "Total" course < firstIdx "Email" course → hb.2 = []) := by
  obtain ⟨hb, hhb⟩ := split_head_body_isSome course
  refine ⟨hb, hhb, ?_⟩
  intro h1 h2 h3 hlt
  have hval : split_head_body course =
      some (course.take (firstIdx "StudentID" course),
        pySlice course (firstIdx "Email" course + 1) (firstIdx "Total" course)) := by
    simp [split_head_body, pyIndex, h1, h2, h3]
  have hb_eq : hb = (course.take (firstIdx "StudentID" course),
      pySlice course (firstIdx "Email" course + 1) (firstIdx "Total" course)) :=
    Option.some.inj (hhb.symm.trans hval)
  rw [hb_eq]
  simp only [pySlice]
  rw [Nat.sub_eq_zero_of_le (by omega)]
  exact List.take_zero _

theorem C10_split_head_body_total_witness :
    ∃ hb, split_head_body ["StudentID", "Total", "Email", "b1"] = some hb ∧
      hb.2 = [] := by
  obtain ⟨hb, h1, h2⟩ := C10_split_head_body_total ["StudentID", "Total", "Email", "b1"]
  exact ⟨hb, h1, h2 (by decide) (by decide) (by decide) (by decide)⟩

/-! ## Claim C4 -/

theorem studentsStep_fst (acc : List Student × Int × Nat)
    (m : String × String × String) :
    (studentsStep acc m).1 = acc.1 ++ [(LineNo.str m.1, m.2.1, m.2.2)] := by
  unfold studentsStep
  split <;> rfl

/-- The student list built by the extraction loop is exactly one entry
per match, in match order, whatever the line-number bookkeeping does. -/
theorem foldl_studentsStep (ms : List (String × String × String))
    (acc : List Student × Int × Nat) :
    (ms.foldl studentsStep acc).1 =
      acc.1 ++ ms.map (fun m => (LineNo.str m.1, m.2.1, m.2.2)) := by
  induction ms generalizing acc with
  | nil => simp
  | cons m ms ih =>
    rw [List.foldl_cons, ih, studentsStep_fst]
    simp

theorem get_students_fst (body : List String) :
    (get_students body).1 =
      (finditerStudents (String.intercalate " " body)).map
        (fun m => (LineNo.str m.1, m.2.1, m.2.2)) := by
  unfold get_students
  rw [foldl_studentsStep]
  simp

/-- C4: on body tokens whose space-join is
`"1 12345 Alice Smith 2 TU-23456 Bob Jones"` the multi-student extractor
returns exactly the two students `("1", "12345", "Alice Smith ")` and
`("2", "TU-23456", "Bob Jones")` (line number as captured, ID, name with
exact whitespace), and in general it emits one student per
non-overlapping regex match in document order — the line-number values
never cause a matched student to be dropped or reordered. -/
theorem C4_get_students_multi :
    (∀ body : List String,
      String.intercalate " " body = "1 12345 Alice Smith 2 TU-23456 Bob Jones" →
      (get_students body).1 =
        [(LineNo.str "1", "12345", "Alice Smith "),
          (LineNo.str "2", "TU-23456", "Bob Jones")]) ∧
    (∀ body : List String,
      (get_students body).1 =
        (finditerStudents (String.intercalate " " body)).map
          (fun m => (LineNo.str m.1, m.2.1, m.2.2))) := by
  refine ⟨?_, get_students_fst⟩
  intro body h
  rw [get_students_fst body, h]
  decide

theorem C4_get_students_multi_witness :
    (get_students ["1", "12345", "Alice Smith", "2", "TU-23456", "Bob Jones"]).1 =
      [(LineNo.str "1", "12345", "Alice Smith "),
        (LineNo.str "2", "TU-23456", "Bob Jones")] :=
  C4_get_students_multi.1
    ["1", "12345", "Alice Smith", "2", "TU-23456", "Bob Jones"] (by decide)

/-! ## Claim C7 -/

/-- On a body of fewer than 5 tokens `get_lonely_students` never hits
its assertion: it returns either no students or exactly one student
whose LineNumber is the literal integer 1. -/
theorem get_lonely_students_cases (body : List String) (hlen : body.length < 5) :
    ∃ students, get_lonely_students body = some students ∧
      (students = [] ∨ ∃ t n, students = [(LineNo.int 1, t, n)]) := by
  unfold get_lonely_students
  by_cases h0 : body.length = 0
  · rw [if_pos h0]
    exact ⟨[], rfl, Or.inl rfl⟩
  · rw [if_neg h0, if_pos hlen]
    cases heq : matchSingleAt (String.intercalate " " body).toList with
    | none => exact ⟨[], rfl, Or.inl rfl⟩
    | some tn =>
      obtain ⟨t, n⟩ := tn
      exact ⟨[(LineNo.int 1, t, n)], rfl, Or.inr ⟨t, n, rfl⟩⟩

/-- C7: for a body of fewer than 5 tokens the single-student regime is
chosen by `get_courses_info`; `get_lonely_students` then returns without
raising either exactly one student with LineNumber fixed to the integer
1 (when the ID+name pattern matches the space-joined body, e.g.
`["99999", "Only Student"]`) or no students at all. -/
theorem C7_single_student_regime :
    (∀ body : List String, body.length < 5 →
      ∃ students, get_lonely_students body = some students ∧
        (students = [] ∨ ∃ t n, students = [(LineNo.int 1, t, n)])) ∧
    get_lonely_students ["99999", "Only Student"] =
      some [(LineNo.int 1, "99999", "Only Student")] ∧
    (∀ (course : Course) (hb : List String × List String),
      "Email" ∈ course → split_head_body course = some hb →
      hb.2.length < 5 →
      courseStep course =
        (get_lonely_students hb.2).bind fun s => some (hb.1, s)) := by
  refine ⟨get_lonely_students_cases, ?_, ?_⟩
  · decide
  · intro course hb hem hsplit hlen
    unfold courseStep
    rw [if_neg (fun hn => hn hem)]
    rw [hsplit]
    simp only [Option.bind_eq_bind, Option.some_bind, if_pos hlen]

theorem C7_single_student_regime_witness :
    (∃ students, get_lonely_students ["9"] = some students ∧
      (students = [] ∨ ∃ t n, students = [(LineNo.int 1, t, n)])) ∧
    courseStep ["StudentID", "Email", "99999", "Only Student"] =
      (get_lonely_students ["99999", "Only Student"]).bind
        fun s => some (([] : List String), s) :=
  ⟨C7_single_student_regime.1 ["9"] (by decide),
    C7_single_student_regime.2.2 ["StudentID", "Email", "99999", "Only Student"]
      ([], ["99999", "Only Student"]) (by decide) (by decide) (by decide)⟩

/-! ## Claim C8 -/

theorem keys_disjoint : ∀ k ∈ COURSE_HEADER_KEYS, k ∉ STUD_HEADER := by
  decide

/-- A recognized key sitting at the very end of the token list is stored
with the empty string, provided the scan reaches it: no student-column
token occurs before it and it was not already used. -/
theorem phkAux_trailing_aux :
    ∀ (fuel : Nat) (pre used : List String) (k : String),
      pre.length + 1 ≤ fuel →
      k ∈ COURSE_HEADER_KEYS → k ∉ pre → k ∉ used →
      (∀ t ∈ pre, t ∉ STUD_HEADER) →
      (k, "") ∈ phkAux fuel (pre ++ [k]) used := by
  intro fuel
  induction fuel with
  | zero =>
    intro pre used k hn
    exact absurd hn (by omega)
  | succ fuel ih =>
    intro pre used k hn hk hkpre hkused hstud
    match pre with
    | [] => simp [phkAux, keys_disjoint k hk, hk, hkused]
    | elt :: rest =>
      have hestud : elt ∉ STUD_HEADER := hstud elt (List.mem_cons_self _ _)
      have hkelt : k ≠ elt := by
        intro hke
        exact hkpre (hke ▸ List.mem_cons_self _ _)
      have hkrest : k ∉ rest := fun hr => hkpre (List.mem_cons_of_mem _ hr)
      have hstud' : ∀ t ∈ rest, t ∉ STUD_HEADER :=
        fun t ht => hstud t (List.mem_cons_of_mem _ ht)
      rw [List.cons_append]
      simp only [phkAux]
      rw [if_neg (by simpa using hestud)]
      by_cases helt : elt ∈ COURSE_HEADER_KEYS ∧ elt ∉ used
      · rw [if_pos helt]
        match rest with
        | [] =>
          simp only [List.nil_append]
          rw [if_neg (by simp [hk])]
          refine List.mem_cons_of_mem _ ?_
          exact ih [] (used ++ [elt]) k (by simp at hn ⊢; omega) hk (by simp)
            (by simp [hkused, hkelt]) (by simp)
        | nxt :: rest2 =>
          simp only [List.cons_append]
          by_cases hnxt : nxt ∉ COURSE_HEADER_KEYS ∧ nxt ∉ STUD_HEADER
          · rw [if_pos hnxt]
            refine List.mem_cons_of_mem _ ?_
            exact ih rest2 (used ++ [elt]) k
              (by simp at hn ⊢; omega) hk
              (fun hr => hkrest (List.mem_cons_of_mem _ hr))
              (by simp [hkused, hkelt])
              (fun t ht => hstud' t (List.mem_cons_of_mem _ ht))
          · rw [if_neg hnxt]
            refine List.mem_cons_of_mem _ ?_
            have := ih (nxt :: rest2) (used ++ [elt]) k
              (by simp at hn ⊢; omega) hk hkrest
              (by simp [hkused, hkelt]) hstud'
            simpa using this
      · rw [if_neg helt]
        exact ih rest used k (by simp at hn ⊢; omega) hk hkrest hkused hstud'

/-- Keys already used are never emitted again, and the emitted
association list has pairwise-distinct keys. -/
theorem phkAux_pairwise_aux :
    ∀ (fuel : Nat) (toks used : List String),
      (∀ kv ∈ phkAux fuel toks used, kv.1 ∉ used) ∧
        (phkAux fuel toks used).Pairwise (fun a b => a.1 ≠ b.1) := by
  intro fuel
  induction fuel with
  | zero =>
    intro toks used
    simp [phkAux]
  | succ fuel ih =>
    intro toks used
    match toks with
    | [] => simp [phkAux]
    | [elt] =>
      simp only [phkAux]
      by_cases hstud : elt ∈ STUD_HEADER
      · rw [if_pos hstud]
        simp
      · rw [if_neg hstud]
        by_cases helt : elt ∈ COURSE_HEADER_KEYS ∧ elt ∉ used
        · rw [if_pos helt]
          constructor
          · intro kv hkv
            simp only [List.mem_singleton] at hkv
            rw [hkv]
            exact helt.2
          · simp
        · rw [if_neg helt]
          exact ih [] used
    | elt :: nxt :: rest2 =>
      simp only [phkAux]
      by_cases hstud : elt ∈ STUD_HEADER
      · rw [if_pos hstud]
        simp
      · rw [if_neg hstud]
        by_cases helt : elt ∈ COURSE_HEADER_KEYS ∧ elt ∉ used
        · rw [if_pos helt]
          by_cases hnxt : nxt ∉ COURSE_HEADER_KEYS ∧ nxt ∉ STUD_HEADER
          · rw [if_pos hnxt]
            obtain ⟨ihmem, ihpw⟩ := ih rest2 (used ++ [elt])
            constructor
            · intro kv hkv
              rcases List.mem_cons.mp hkv with hkv | hkv
              · rw [hkv]; exact helt.2
              · intro hku
                exact ihmem kv hkv (List.mem_append_left _ hku)
            · refine List.Pairwise.cons ?_ ihpw
              intro kv hkv
              have := ihmem kv hkv
              simp only [List.mem_append, List.mem_singleton, not_or] at this
              exact fun he => this.2 he.symm
          · rw [if_neg hnxt]
            obtain ⟨ihmem, ihpw⟩ := ih (nxt :: rest2) (used ++ [elt])
            constructor
            · intro kv hkv
              rcases List.mem_cons.mp hkv with hkv | hkv
              · rw [hkv]; exact helt.2
              · intro hku
                exact ihmem kv hkv (List.mem_append_left _ hku)
            · refine List.Pairwise.cons ?_ ihpw
              intro kv hkv
              have := ihmem kv hkv
              simp only [List.mem_append, List.mem_singleton, not_or] at this
              exact fun he => this.2 he.symm
        · rw [if_neg helt]
          exact ih (nxt :: rest2) used

/-- C8: `parse_header_keys` maps `["Course","MATH101","Instructor","Jane Doe"]`
to `{"Course": "MATH101", "Instructor": "Jane Doe"}`; a recognized field
name with no following token is mapped to the empty string; and each
recognized field name is captured at most once (the emitted mapping has
pairwise-distinct keys, so later repeats are ignored). -/
theorem C8_parse_header_keys :
    parse_header_keys ["Course", "MATH101", "Instructor", "Jane Doe"] =
        [("Course", "MATH101"), ("Instructor", "Jane Doe")] ∧
      (∀ (pre : List String) (k : String), k ∈ COURSE_HEADER_KEYS → k ∉ pre →
        (∀ t ∈ pre, t ∉ STUD_HEADER) →
        (k, "") ∈ parse_header_keys (pre ++ [k])) ∧
      (∀ tokens : List String,
        (parse_header_keys tokens).Pairwise (fun a b => a.1 ≠ b.1)) := by
  refine ⟨by decide, ?_, ?_⟩
  · intro pre k hk hkpre hstud
    have hlen : (pre ++ [k]).length = pre.length + 1 := by simp
    rw [parse_header_keys, hlen]
    exact phkAux_trailing_aux (pre.length + 1) pre [] k (Nat.le_refl _) hk hkpre
      (by simp) hstud
  · intro tokens
    exact (phkAux_pairwise_aux tokens.length tokens []).2

theorem C8_parse_header_keys_witness :
    ("Instructor", "") ∈ parse_header_keys ["Course", "MATH101", "Instructor"] ∧
      (parse_header_keys ["Course", "X", "Course", "Y"]).Pairwise
        (fun a b => a.1 ≠ b.1) :=
  ⟨C8_parse_header_keys.2.1 ["Course", "MATH101"] "Instructor"
      (by decide) (by decide) (by decide),
    C8_parse_header_keys.2.2 ["Course", "X", "Course", "Y"]⟩

/-! ## Claim C9 -/

/-- The per-course loop body of `get_courses_info` never raises: the
missing-`"Email"` branch returns directly, `split_head_body` is total,
and `get_lonely_students` is only entered on bodies shorter than 5
tokens, where its assertion holds. -/
theorem courseStep_eq_courseStepD (c : Course) :
    courseStep c = some (courseStepD c) := by
  have hsome : ∃ r, courseStep c = some r := by
    unfold courseStep
    by_cases he : "Email" ∉ c
    · rw [if_pos he]
      exact ⟨(c, []), rfl⟩
    · rw [if_neg he]
      obtain ⟨hb, hhb⟩ := split_head_body_isSome c
      rw [hhb]
      simp only [Option.bind_eq_bind, Option.some_bind]
      by_cases hlen : hb.2.length < 5
      · rw [if_pos hlen]
        obtain ⟨s, hs, _⟩ := get_lonely_students_cases hb.2 hlen
        rw [hs]
        exact ⟨(hb.1, s), rfl⟩
      · rw [if_neg hlen]
        exact ⟨(hb.1, (get_students hb.2).1), rfl⟩
  obtain ⟨r, hr⟩ := hsome
  rw [hr, courseStepD, hr]
  rfl

theorem get_courses_info_eq (courses : List Course) :
    get_courses_info courses = some (courses.map courseStepD) := by
  induction courses with
  | nil => rfl
  | cons c cs ih =>
    simp only [get_courses_info, courseStep_eq_courseStepD c, ih,
      Option.bind_eq_bind, Option.some_bind, List.map_cons]

theorem courseStepD_no_email {c : Course} (h : "Email" ∉ c) :
    courseStepD c = (c, []) := by
  rw [courseStepD, show courseStep c = some (c, []) from by
    simp [courseStep, h]]
  rfl

/-- Every key emitted by the header-field extractor is one of the six
recognized course header fields (in particular never `"crsid"`). -/
theorem phkAux_keys_sub :
    ∀ (fuel : Nat) (toks used : List String),
      ∀ kv ∈ phkAux fuel toks used, kv.1 ∈ COURSE_HEADER_KEYS := by
  intro fuel
  induction fuel with
  | zero =>
    intro toks used kv hkv
    simp [phkAux] at hkv
  | succ fuel ih =>
    intro toks used kv hkv
    match toks with
    | [] => simp [phkAux] at hkv
    | [elt] =>
      simp only [phkAux] at hkv
      by_cases hstud : elt ∈ STUD_HEADER
      · rw [if_pos hstud] at hkv
        simp at hkv
      · rw [if_neg hstud] at hkv
        by_cases helt : elt ∈ COURSE_HEADER_KEYS ∧ elt ∉ used
        · rw [if_pos helt] at hkv
          simp only [List.mem_singleton] at hkv
          rw [hkv]
          exact helt.1
        · rw [if_neg helt] at hkv
          exact ih [] used kv hkv
    | elt :: nxt :: rest2 =>
      simp only [phkAux] at hkv
      by_cases hstud : elt ∈ STUD_HEADER
      · rw [if_pos hstud] at hkv
        simp at hkv
      · rw [if_neg hstud] at hkv
        by_cases helt : elt ∈ COURSE_HEADER_KEYS ∧ elt ∉ used
        · rw [if_pos helt] at hkv
          by_cases hnxt : nxt ∉ COURSE_HEADER_KEYS ∧ nxt ∉ STUD_HEADER
          · rw [if_pos hnxt] at hkv
            rcases List.mem_cons.mp hkv with hkv | hkv
            · rw [hkv]; exact helt.1
            · exact ih rest2 (used ++ [elt]) kv hkv
          · rw [if_neg hnxt] at hkv
            rcases List.mem_cons.mp hkv with hkv | hkv
            · rw [hkv]; exact helt.1
            · exact ih (nxt :: rest2) (used ++ [elt]) kv hkv
        · rw [if_neg helt] at hkv
          exact ih (nxt :: rest2) used kv hkv

/-- A row emitted for course number `j` carries `("crsid", j)` and no
other `crsid` entry. -/
theorem courseRows_crsid {i j : Nat} {info : List String × List Student}
    {row : Row} (hrow : row ∈ courseRows j info)
    (hmem : ("crsid", RowVal.n i) ∈ row) : i = j := by
  unfold courseRows at hrow
  obtain ⟨chunk, _, hchunk⟩ := List.mem_map.mp hrow
  rw [← hchunk] at hmem
  rcases List.mem_append.mp hmem with hmem | hmem
  · rcases List.mem_append.mp hmem with hmem | hmem
    · obtain ⟨kv, hkv, hkveq⟩ := List.mem_map.mp hmem
      have hkey : kv.1 ∈ COURSE_HEADER_KEYS :=
        phkAux_keys_sub info.1.length info.1 [] kv hkv
      have : kv.1 = "crsid" := congrArg Prod.fst hkveq
      rw [this] at hkey
      exact absurd hkey (by decide)
    · simp only [List.mem_singleton, Prod.mk.injEq, RowVal.n.injEq] at hmem
      exact hmem.2
  · simp only [List.mem_cons, List.mem_singleton, Prod.mk.injEq] at hmem
    rcases hmem with ⟨h1, _⟩ | (⟨h1, _⟩ | (⟨h1, _⟩ | hmem))
    · exact absurd h1 (by decide)
    · exact absurd h1 (by decide)
    · exact absurd h1 (by decide)
    · exact absurd hmem (by simp)

/-- C9: a course without an `"Email"` token is emitted by
`get_courses_info` as a degraded record — whole course as header, empty
student list — the remaining courses are processed exactly as they would
be anyway (no raise), and end to end the degraded course contributes no
row to the long table (no row carries its `crsid`). -/
theorem C9_course_without_email (courses : List Course) (i : Nat)
    (h : i < courses.length) (hm : "Email" ∉ courses.getD i []) :
    ∃ infos, get_courses_info courses = some infos ∧
      infos.length = courses.length ∧
      infos.getD i ([], []) = (courses.getD i [], []) ∧
      (∀ j, infos.getD j ([], []) = courseStepD (courses.getD j [])) ∧
      (∀ row ∈ build_long_table infos, ("crsid", RowVal.n i) ∉ row) := by
  refine ⟨courses.map courseStepD, get_courses_info_eq courses, by simp, ?_, ?_, ?_⟩
  · have hgd : ∀ j : Nat, (courses.map courseStepD).getD j ([], []) =
        courseStepD (courses.getD j []) := by
      intro j
      by_cases hj : j < courses.length
      · rw [List.getD_eq_getElem?_getD, List.getD_eq_getElem?_getD,
          List.getElem?_map, List.getElem?_eq_getElem hj]
        rfl
      · rw [List.getD_eq_getElem?_getD, List.getD_eq_getElem?_getD,
          List.getElem?_eq_none (by simpa using Nat.le_of_not_lt hj),
          List.getElem?_eq_none (Nat.le_of_not_lt hj)]
        rfl
    rw [hgd i, courseStepD_no_email hm]
  · intro j
    by_cases hj : j < courses.length
    · rw [List.getD_eq_getElem?_getD, List.getD_eq_getElem?_getD,
        List.getElem?_map, List.getElem?_eq_getElem hj]
      rfl
    · rw [List.getD_eq_getElem?_getD, List.getD_eq_getElem?_getD,
        List.getElem?_eq_none (by simpa using Nat.le_of_not_lt hj),
        List.getElem?_eq_none (Nat.le_of_not_lt hj)]
      rfl
  · intro row hrow hmem
    unfold build_long_table at hrow
    obtain ⟨p, hp, hprow⟩ := List.mem_flatMap.mp hrow
    have hij : i = p.1 := courseRows_crsid hprow hmem
    have hpget : (courses.map courseStepD)[p.1]? = some p.2 := by
      have := hp
      rw [List.mk_mem_enum_iff_getElem?] at this
      · exact this
    rw [← hij] at hpget
    have hp2 : p.2 = (courses.getD i [], []) := by
      have hi2 : (courses.map courseStepD)[i]? =
          some (courseStepD (courses.getD i [])) := by
        rw [List.getElem?_map, List.getElem?_eq_getElem h,
          List.getD_eq_getElem?_getD, List.getElem?_eq_getElem h]
        rfl
      rw [hi2] at hpget
      have := Option.some.inj hpget
      rw [← this, courseStepD_no_email hm]
    rw [← hij, hp2] at hprow
    simp [courseRows] at hprow

theorem C9_course_without_email_witness :
    ∃ infos,
      get_courses_info
          [["StudentID", "Email", "99999", "Only", "Total"], ["Course", "X"]] =
        some infos ∧
      infos.length =
        [["StudentID", "Email", "99999", "Only", "Total"],
          ["Course", "X"]].length ∧
      infos.getD 1 ([], []) =
        ([["StudentID", "Email", "99999", "Only", "Total"],
          ["Course", "X"]].getD 1 [], []) ∧
      (∀ j, infos.getD j ([], []) =
        courseStepD ([["StudentID", "Email", "99999", "Only", "Total"],
          ["Course", "X"]].getD j [])) ∧
      (∀ row ∈ build_long_table infos, ("crsid", RowVal.n 1) ∉ row) :=
  C9_course_without_email
    [["StudentID", "Email", "99999", "Only", "Total"], ["Course", "X"]] 1
    (by decide) (by decide)

end Roster
